import Mathlib

/-!
Verification of the agent output stream normalizer of `playwriter-in-kernel`.

The development shallowly embeds, from the Go source:

* the chunked JSON decode loop shared by `CursorAgent.Run`, `ClaudeAgent.Run`
  and `OpenCodeAgent.Run` (the `jsonBuffer` / `json.Decoder` loop plus the
  end-of-stream flush);
* the OpenCode event normalizer `convertEvent`;
* the presentation filter `(*Parser).ProcessEvent` from `stream/parser.go`;
* the base64 helper `DecodeB64` (faithful to Go's
  `base64.StdEncoding.DecodeString`, which returns the bytes decoded before the
  first error);
* the exit-code / error plumbing of `Run` over an abstract stream trace.

Byte strings are modelled as `List Char` (all inputs of interest are ASCII, so
Go byte indexing and Lean character indexing coincide).  Display styling
(`lipgloss.Render`) only adds terminal colour codes around the text, so display
lines are modelled as their unstyled text.
-/

set_option maxRecDepth 20000

/-- The character `{` (written via its code point to keep string scanning simple). -/
def lbraceChar : Char := Char.ofNat 123

/-- The character `}`. -/
def rbraceChar : Char := Char.ofNat 125

/-- The character `[`. -/
def lbrackChar : Char := '['

/-- The character `]`. -/
def rbrackChar : Char := ']'

/-- The double-quote character. -/
def quoteChar : Char := Char.ofNat 34

/-- The backslash character. -/
def backslashChar : Char := Char.ofNat 92

/-- JSON insignificant whitespace, as skipped by Go's `encoding/json` scanner
(space, tab, newline, carriage return). -/
def isJsonWs (c : Char) : Bool := c = ' ' || c = Char.ofNat 9 || c = Char.ofNat 10 || c = Char.ofNat 13

/-- Boundary scanner for one JSON value whose outermost form is an object:
given the bytes after the opening `{`, a nesting `depth` (braces/brackets not
yet closed), and string-literal state (`inStr`, with `esc` set right after a
backslash), it returns the number of further characters consumed up to and
including the brace closing the outermost object, or `none` when the input
ends first.  This is exactly the information `json.Decoder` uses to delimit a
top-level object: brace/bracket nesting with string literals (and their escape
sequences) opaque. -/
def scan : List Char → Nat → Bool → Bool → Option Nat
  | [], _, _, _ => none
  | c :: cs, depth, inStr, esc =>
    if inStr then
      if esc then Option.map (· + 1) (scan cs depth true false)
      else if c = backslashChar then Option.map (· + 1) (scan cs depth true true)
      else if c = quoteChar then Option.map (· + 1) (scan cs depth false false)
      else Option.map (· + 1) (scan cs depth true false)
    else
      if c = quoteChar then Option.map (· + 1) (scan cs depth true false)
      else if c = lbraceChar || c = lbrackChar then Option.map (· + 1) (scan cs (depth + 1) false false)
      else if c = rbraceChar || c = rbrackChar then
        if depth ≤ 1 then some 1
        else Option.map (· + 1) (scan cs (depth - 1) false false)
      else Option.map (· + 1) (scan cs depth false false)

/-- One `decoder.Decode` step of the Go loop, specialised to the inputs this
program receives (top-level JSON objects): skip leading JSON whitespace; if the
next character opens an object, consume up to its matching closing brace and
return `(consumed prefix, remainder)`; otherwise (`none`) the decode fails —
either the buffer holds an incomplete object (wait for more data) or it cannot
start one at all.  The consumed prefix includes the skipped leading whitespace,
matching `decoder.InputOffset()` which points just past the decoded value. -/
def parseOne (s : List Char) : Option (List Char × List Char) :=
  match s.dropWhile isJsonWs with
  | c :: rest =>
    if c = lbraceChar then
      match scan rest 1 false false with
      | some n => some (s.takeWhile isJsonWs ++ c :: rest.take n, rest.drop n)
      | none => none
    else none
  | [] => none

/-- A byte string that the decode step accepts as exactly one complete JSON
object, consuming all of it.  `C1` quantifies over these; every well-formed
top-level JSON object serialization satisfies it. -/
def IsJsonObject (o : List Char) : Prop := parseOne o = some (o, [])

/-- Fuel-indexed greedy decoder: repeatedly `parseOne` from the front of the
buffer, emitting each consumed object, until a decode fails; returns the
emitted objects and the retained unparsed remainder.  This is the Go inner
`for { decoder.Decode ... }` loop plus the `consumed` / `remaining` buffer
trimming. -/
def greedyF : Nat → List Char → List (List Char) × List Char
  | 0, s => ([], s)
  | fuel + 1, s =>
    match parseOne s with
    | some (v, r) =>
      let g := greedyF fuel r
      (v :: g.1, g.2)
    | none => ([], s)

/-- Greedy decode with always-sufficient fuel (each successful `parseOne`
consumes at least one character). -/
def greedy (s : List Char) : List (List Char) × List Char := greedyF (s.length + 1) s

/-- One iteration of the Go streaming loop for a data chunk: skip when the
chunk is empty (the `event.DataB64 != ""` guard), otherwise append the chunk
to the buffer and greedily decode, emitting complete objects and keeping the
unparsed remainder. -/
def feedStep (acc : List (List Char) × List Char) (d : List Char) : List (List Char) × List Char :=
  if d = [] then acc
  else
    let g := greedy (acc.2 ++ d)
    (acc.1 ++ g.1, g.2)

/-- The whole `Run` decode loop over a list of data chunks: fold the feed step
from an empty buffer, then perform the end-of-stream flush (one more greedy
decode of whatever remains).  Returns the emitted raw objects in order. -/
def runFeeds (chunks : List (List Char)) : List (List Char) :=
  let fin := chunks.foldl feedStep ([], [])
  fin.1 ++ (greedy fin.2).1

/-- A character that cannot begin any JSON value (not `{`, `[`, `"`, the start
of `true`/`false`/`null`, a minus sign or a digit) — e.g. the ESC byte of a
terminal control sequence. -/
def notJsonStart (c : Char) : Bool :=
  !(c = lbraceChar || c = lbrackChar || c = quoteChar || c = 't' || c = 'f' ||
    c = 'n' || c = '-' || c.isDigit)

/-- A buffer whose first non-whitespace byte cannot start a JSON value; the
decode step fails on such a buffer without consuming anything. -/
def BadStart (b : List Char) : Prop :=
  ∃ c r, b.dropWhile isJsonWs = c :: r ∧ notJsonStart c = true

/-- Whitespace as recognised by Go's `strings.TrimSpace` / `strings.Fields`
(`unicode.IsSpace`), restricted to ASCII: space, tab, newline, vertical tab,
form feed, carriage return.  All inputs in this development are ASCII. -/
def isGoSpace (c : Char) : Bool :=
  c = ' ' || c = Char.ofNat 9 || c = Char.ofNat 10 || c = Char.ofNat 11 ||
  c = Char.ofNat 12 || c = Char.ofNat 13

/-- Go `strings.TrimSpace`: drop leading and trailing whitespace. -/
def trimSpace (s : List Char) : List Char :=
  ((s.dropWhile isGoSpace).reverse.dropWhile isGoSpace).reverse

/-- One pass of Go `strings.ReplaceAll(text, "\n\n", "\n")`: replace each
leftmost non-overlapping occurrence of two newlines by one. -/
def replaceNN : List Char → List Char
  | c :: c' :: rest =>
    if c = Char.ofNat 10 && c' = Char.ofNat 10 then Char.ofNat 10 :: replaceNN rest
    else c :: replaceNN (c' :: rest)
  | [c] => [c]
  | [] => []

/-- Go `strings.Contains(text, "\n\n")`. -/
def containsNN : List Char → Bool
  | c :: c' :: rest => (c = Char.ofNat 10 && c' = Char.ofNat 10) || containsNN (c' :: rest)
  | _ => false

/-- Go `strings.Contains(text, "\n")`. -/
def containsNL (s : List Char) : Bool := s.any (· = Char.ofNat 10)

/-- The `for strings.Contains(text, "\n\n") { text = ReplaceAll(...) }` loop of
`ProcessEvent`, fuel-indexed (each pass strictly shortens the string, so
`length` passes always suffice). -/
def collapseFuel : Nat → List Char → List Char
  | 0, s => s
  | fuel + 1, s => if containsNN s then collapseFuel fuel (replaceNN s) else s

/-- Collapse every run of two-or-more consecutive newlines down to one. -/
def collapseNewlines (s : List Char) : List Char := collapseFuel s.length s

/-- Go `strings.Fields`: split around runs of whitespace (accumulator holds the
current word reversed). -/
def goFieldsAux : List Char → List Char → List (List Char)
  | [], acc => if acc = [] then [] else [acc.reverse]
  | c :: cs, acc =>
    if isGoSpace c then
      if acc = [] then goFieldsAux cs []
      else acc.reverse :: goFieldsAux cs []
    else goFieldsAux cs (c :: acc)

/-- Go `strings.Fields`. -/
def goFields (s : List Char) : List (List Char) := goFieldsAux s []

/-- Go `strings.Join(words, " ")`. -/
def joinSpace : List (List Char) → List Char
  | [] => []
  | w :: ws =>
    match ws with
    | [] => w
    | _ => w ++ ' ' :: joinSpace ws

/-- Go `strings.ReplaceAll(code, "\n", " ")`. -/
def replaceNLBySpace (s : List Char) : List Char :=
  s.map (fun c => if c = Char.ofNat 10 then ' ' else c)

/-- One content item of `StreamEvent.Message.Content` (fields `type`, `text`). -/
structure ContentItem where
  ctype : List Char
  text : List Char
deriving DecidableEq

/-- The innermost `Args` of `ToolCall.MCPToolCall.Args.Args` (field `code`). -/
structure InnerArgs where
  code : List Char
deriving DecidableEq

/-- `ToolCall.MCPToolCall.Args` (fields `name`, `toolName`, `args.code`). -/
structure MCPArgs where
  name : List Char
  toolName : List Char
  args : InnerArgs
deriving DecidableEq

/-- `StreamEvent.ToolCall.MCPToolCall`. -/
structure MCPToolCall where
  args : MCPArgs
deriving DecidableEq

/-- `StreamEvent.ToolCall`. -/
structure ToolCall where
  mcpToolCall : MCPToolCall
deriving DecidableEq

/-- `StreamEvent.Message` (field `content`). -/
structure Message where
  content : List ContentItem
deriving DecidableEq

/-- The canonical `StreamEvent` struct of the `agent` package: `Type`,
`Subtype`, `Message.Content`, `ToolCall.MCPToolCall.Args`. -/
structure StreamEvent where
  ty : List Char
  subtype : List Char
  message : Message
  toolCall : ToolCall
deriving DecidableEq

/-- The zero value of `StreamEvent` (Go's `var streamEvent StreamEvent`). -/
def zeroEvent : StreamEvent :=
  { ty := [], subtype := [], message := { content := [] },
    toolCall := { mcpToolCall := { args := { name := [], toolName := [], args := { code := [] } } } } }

/-- The `assistant` branch of `ProcessEvent`: iterate over
`event.Message.Content`, threading `lastPrintedMessage`; returns the final
state and the printed lines in order. -/
def processContent (last : List Char) : List ContentItem → List Char × List (List Char)
  | [] => (last, [])
  | c :: cs =>
    let text := trimSpace c.text
    if text ≠ [] ∧ text ≠ last then
      let text := collapseNewlines text
      let line := if containsNL text then text else "> ".toList ++ text
      let rest := processContent text cs
      (rest.1, line :: rest.2)
    else processContent last cs

/-- `(*Parser).ProcessEvent` from `stream/parser.go` (identical logic to
`processStreamLine` in `main.go`): given the parser state
(`lastPrintedMessage`) and an event, return the new state and the display
lines printed.  Rendering styles add only terminal colours, so a line is
modelled as its text. -/
def ProcessEvent (last : List Char) (event : StreamEvent) : List Char × List (List Char) :=
  if event.ty = "system".toList ∨ event.ty = "user".toList ∨
     event.ty = "thinking".toList ∨ event.ty = "result".toList then (last, [])
  else if event.ty = "tool_call".toList then
    if event.subtype = "started".toList then
      let toolName :=
        if event.toolCall.mcpToolCall.args.name = [] then event.toolCall.mcpToolCall.args.toolName
        else event.toolCall.mcpToolCall.args.name
      if toolName ≠ [] then
        let code := event.toolCall.mcpToolCall.args.args.code
        if code ≠ [] then
          let code := joinSpace (goFields (replaceNLBySpace code))
          let code := if 80 < code.length then code.take 77 ++ "...".toList else code
          (last, ["[tool] ".toList ++ toolName ++ ": ".toList ++ code])
        else (last, ["[tool] ".toList ++ toolName])
      else (last, [])
    else (last, [])
  else if event.ty = "assistant".toList then processContent last event.message.content
  else (last, [])

/-- Process a list of events in order, accumulating display lines
(the handler loop feeding `ProcessEvent`). -/
def processEvents (last : List Char) : List StreamEvent → List Char × List (List Char)
  | [] => (last, [])
  | e :: es =>
    let r := ProcessEvent last e
    let rest := processEvents r.1 es
    (rest.1, r.2 ++ rest.2)

/-- `OpenCodeStreamEvent.Part.State.Input` (field `code`). -/
structure OCInput where
  code : List Char
deriving DecidableEq

/-- `OpenCodeStreamEvent.Part.State` (fields `status`, `input`). -/
structure OCState where
  status : List Char
  input : OCInput
deriving DecidableEq

/-- `OpenCodeStreamEvent.Part` (fields `id`, `type`, `text`, `tool`, `state`). -/
structure OCPart where
  id : List Char
  pty : List Char
  text : List Char
  tool : List Char
  state : OCState
deriving DecidableEq

/-- `OpenCodeStreamEvent` from `opencode.go` (fields `type`, `timestamp`,
`sessionID`, `part`). -/
structure OpenCodeStreamEvent where
  ty : List Char
  timestamp : Int
  sessionID : List Char
  part : OCPart
deriving DecidableEq

/-- `(*OpenCodeAgent).convertEvent`: map an OpenCode event onto the common
`StreamEvent` shape.  `text` becomes `assistant` with one content item when
the part text is non-empty; `tool_use` becomes `tool_call`, marked `started`
when the tool status is not `"completed"`; every other type passes through
with only `Type` set (the Go zero value for the rest). -/
def convertEvent (ocEvent : OpenCodeStreamEvent) : StreamEvent :=
  if ocEvent.ty = "text".toList then
    { zeroEvent with
      ty := "assistant".toList,
      message := { content :=
        if ocEvent.part.text ≠ [] then [{ ctype := "text".toList, text := ocEvent.part.text }]
        else [] } }
  else if ocEvent.ty = "tool_use".toList then
    { zeroEvent with
      ty := "tool_call".toList,
      subtype := if ocEvent.part.state.status ≠ "completed".toList then "started".toList else [],
      toolCall := { mcpToolCall := { args :=
        { name := ocEvent.part.tool, toolName := [],
          args := { code := ocEvent.part.state.input.code } } } } }
  else { zeroEvent with ty := ocEvent.ty }

/-- A parsed JSON value (`encoding/json` term tree).  Numbers are kept as raw
text: no claim inspects numeric values. -/
inductive JVal where
  | jnull : JVal
  | jbool : Bool → JVal
  | jnum : List Char → JVal
  | jstr : List Char → JVal
  | jarr : List JVal → JVal
  | jobj : List (List Char × JVal) → JVal

/-- Hex digit value, for `\uXXXX` escapes. -/
def hexVal (c : Char) : Option Nat :=
  if '0' ≤ c ∧ c ≤ '9' then some (c.toNat - 48)
  else if 'a' ≤ c ∧ c ≤ 'f' then some (c.toNat - 97 + 10)
  else if 'A' ≤ c ∧ c ≤ 'F' then some (c.toNat - 65 + 10)
  else none

/-- Parse the body of a JSON string literal after the opening quote, decoding
escape sequences (`\uXXXX` for basic-plane code points; surrogate pairs do not
occur in this program's inputs); returns the decoded content and the rest
after the closing quote. -/
def parseStrBody : Nat → List Char → Option (List Char × List Char)
  | 0, _ => none
  | fuel + 1, s =>
    match s with
    | [] => none
    | c :: cs =>
      if c = quoteChar then some ([], cs)
      else if c = backslashChar then
        match cs with
        | [] => none
        | e :: cs' =>
          if e = 'u' then
            match cs' with
            | h1 :: h2 :: h3 :: h4 :: cs'' =>
              match hexVal h1, hexVal h2, hexVal h3, hexVal h4 with
              | some v1, some v2, some v3, some v4 =>
                Option.map (fun rr => (Char.ofNat (((v1 * 16 + v2) * 16 + v3) * 16 + v4) :: rr.1, rr.2))
                  (parseStrBody fuel cs'')
              | _, _, _, _ => none
            | _ => none
          else
            match
              (if e = quoteChar then some quoteChar
               else if e = backslashChar then some backslashChar
               else if e = '/' then some '/'
               else if e = 'n' then some (Char.ofNat 10)
               else if e = 't' then some (Char.ofNat 9)
               else if e = 'r' then some (Char.ofNat 13)
               else if e = 'b' then some (Char.ofNat 8)
               else if e = 'f' then some (Char.ofNat 12)
               else none) with
            | some d => Option.map (fun rr => (d :: rr.1, rr.2)) (parseStrBody fuel cs')
            | none => none
      else Option.map (fun rr => (c :: rr.1, rr.2)) (parseStrBody fuel cs)

/-- Characters that may occur in a JSON number token. -/
def isNumChar (c : Char) : Bool :=
  c.isDigit || c = '-' || c = '+' || c = '.' || c = 'e' || c = 'E'

mutual

/-- Parse one JSON value from the front (after skipping whitespace), fuel-indexed. -/
def parseVal : Nat → List Char → Option (JVal × List Char)
  | 0, _ => none
  | fuel + 1, s =>
    match s.dropWhile isJsonWs with
    | [] => none
    | c :: cs =>
      if c = quoteChar then Option.map (fun rr => (JVal.jstr rr.1, rr.2)) (parseStrBody (fuel + 1) cs)
      else if c = lbraceChar then parseObjRest fuel cs
      else if c = lbrackChar then parseArrRest fuel cs
      else if c = 't' then
        if cs.take 3 = "rue".toList then some (JVal.jbool true, cs.drop 3) else none
      else if c = 'f' then
        if cs.take 4 = "alse".toList then some (JVal.jbool false, cs.drop 4) else none
      else if c = 'n' then
        if cs.take 3 = "ull".toList then some (JVal.jnull, cs.drop 3) else none
      else if c = '-' || c.isDigit then
        some (JVal.jnum (c :: cs.takeWhile isNumChar), cs.dropWhile isNumChar)
      else none

/-- Parse the remainder of a JSON object after the opening brace. -/
def parseObjRest : Nat → List Char → Option (JVal × List Char)
  | 0, _ => none
  | fuel + 1, s =>
    match s.dropWhile isJsonWs with
    | [] => none
    | c :: cs =>
      if c = rbraceChar then some (JVal.jobj [], cs)
      else if c = quoteChar then
        match parseStrBody (fuel + 1) cs with
        | some (key, rest) => parseFieldTail fuel key rest
        | none => none
      else none

/-- After an object key: expect `:`, a value, then `,` and more fields or `}`. -/
def parseFieldTail : Nat → List Char → List Char → Option (JVal × List Char)
  | 0, _, _ => none
  | fuel + 1, key, s =>
    match s.dropWhile isJsonWs with
    | [] => none
    | c :: cs =>
      if c = ':' then
        match parseVal fuel cs with
        | some (v, rest) =>
          match rest.dropWhile isJsonWs with
          | [] => none
          | c' :: cs' =>
            if c' = rbraceChar then some (JVal.jobj [(key, v)], cs')
            else if c' = ',' then
              match cs'.dropWhile isJsonWs with
              | c'' :: cs'' =>
                if c'' = quoteChar then
                  match parseStrBody (fuel + 1) cs'' with
                  | some (key', rest') =>
                    match parseFieldTail fuel key' rest' with
                    | some (JVal.jobj fs, rest'') => some (JVal.jobj ((key, v) :: fs), rest'')
                    | _ => none
                  | none => none
                else none
              | [] => none
            else none
        | none => none
      else none

/-- Parse the remainder of a JSON array after the opening bracket. -/
def parseArrRest : Nat → List Char → Option (JVal × List Char)
  | 0, _ => none
  | fuel + 1, s =>
    match s.dropWhile isJsonWs with
    | [] => none
    | c :: cs =>
      if c = rbrackChar then some (JVal.jarr [], cs)
      else
        match parseVal fuel s with
        | some (v, rest) =>
          match rest.dropWhile isJsonWs with
          | [] => none
          | c' :: cs' =>
            if c' = rbrackChar then some (JVal.jarr [v], cs')
            else if c' = ',' then
              match parseArrRest fuel cs' with
              | some (JVal.jarr vs, rest') => some (JVal.jarr (v :: vs), rest')
              | _ => none
            else none
        | none => none

end

/-- Look a key up in a parsed object, last occurrence winning (as Go's
`encoding/json` object decoding does). -/
def jGet (fields : List (List Char × JVal)) (key : List Char) : Option JVal :=
  (fields.reverse.find? (fun kv => kv.1 = key)).map (·.2)

/-- Extract a string field, empty when absent (a well-typed-or-absent field, as
in all inputs this program's vendors produce). -/
def jStrField (fields : List (List Char × JVal)) (key : List Char) : List Char :=
  match jGet fields key with
  | some (JVal.jstr s) => s
  | _ => []

/-- Extract the fields of an object-valued field, empty when absent. -/
def jObjField (fields : List (List Char × JVal)) (key : List Char) : List (List Char × JVal) :=
  match jGet fields key with
  | some (JVal.jobj fs) => fs
  | _ => []

/-- Extract an array-valued field, empty when absent. -/
def jArrField (fields : List (List Char × JVal)) (key : List Char) : List JVal :=
  match jGet fields key with
  | some (JVal.jarr vs) => vs
  | _ => []

/-- `json.Unmarshal` of one decoded value into the `StreamEvent` struct:
top-level object fields `type`, `subtype`, `message.content[].{type,text}`,
`tool_call.mcpToolCall.args.{name,toolName,args.code}`; absent fields keep the
zero value, `null` leaves the whole struct zero. -/
def decodeStreamEvent (s : List Char) : Option StreamEvent :=
  match parseVal (s.length + 1) s with
  | some (JVal.jobj fs, _) =>
    some
      { ty := jStrField fs "type".toList,
        subtype := jStrField fs "subtype".toList,
        message :=
          { content :=
              (jArrField (jObjField fs "message".toList) "content".toList).map fun item =>
                match item with
                | JVal.jobj ifs => { ctype := jStrField ifs "type".toList, text := jStrField ifs "text".toList }
                | _ => { ctype := [], text := [] } },
        toolCall :=
          { mcpToolCall :=
              { args :=
                  let afs := jObjField (jObjField (jObjField fs "tool_call".toList) "mcpToolCall".toList) "args".toList
                  { name := jStrField afs "name".toList,
                    toolName := jStrField afs "toolName".toList,
                    args := { code := jStrField (jObjField afs "args".toList) "code".toList } } } } }
  | some (JVal.jnull, _) => some zeroEvent
  | _ => none

/-- The full per-run pipeline for the cursor/claude shape: chunked decode, JSON
unmarshal of each emitted raw object, then the presentation filter from a fresh
parser state; returns the display lines. -/
def pipeline (chunks : List (List Char)) : List (List Char) :=
  (processEvents [] ((runFeeds chunks).filterMap decodeStreamEvent)).2

/-- One unit from the stdout stream: a decoded data chunk, or the exit event
carrying the process exit code. -/
inductive StreamItem where
  | data : List Char → StreamItem
  | exit : Int → StreamItem
deriving DecidableEq

/-- The error `stream.Err()` can report after the loop stops.  When the run's
context deadline (the configured agent timeout) elapses, the SDK stream stops
yielding items and `Err()` reports the context's `DeadlineExceeded` error. -/
inductive StreamErr where
  | deadlineExceeded : StreamErr
  | other : StreamErr
deriving DecidableEq

/-- The error value `Run` returns (Go `error`, `nil` modelled as `none`). -/
inductive RunErr where
  | streamError : StreamErr → RunErr
deriving DecidableEq

/-- A completed observation of the stdout stream: the items `stream.Next()`
yielded before returning `false`, and the final value of `stream.Err()`. -/
structure StreamTrace where
  items : List StreamItem
  err : Option StreamErr

/-- The `for stream.Next()` loop of `Run`: decode data chunks through the
buffer, stop at the first exit event recording its code. -/
def runLoop : List StreamItem → List (List Char) × List Char → (List (List Char) × List Char) × Option Int
  | [], acc => (acc, none)
  | StreamItem.exit c :: _, acc => (acc, some c)
  | StreamItem.data d :: rest, acc => runLoop rest (feedStep acc d)

/-- `Run` (cursor/claude/opencode shape) over a stream trace: run the loop,
flush the buffer, then return `(1, stream error)` when `stream.Err()` is
non-nil, else the recorded exit code (`0` when the stream ended without an
exit event) with no error.  Returns the emitted raw objects and the
`(exitCode, err)` pair. -/
def agentRun (tr : StreamTrace) : List (List Char) × (Int × Option RunErr) :=
  let r := runLoop tr.items ([], [])
  let events := r.1.1 ++ (greedy r.1.2).1
  match tr.err with
  | some e => (events, (1, some (RunErr.streamError e)))
  | none => (events, ((r.2.getD 0), none))

/-- Value of a standard-base64 alphabet character (`A–Z`, `a–z`, `0–9`, `+`, `/`). -/
def b64val (c : Char) : Option Nat :=
  if 'A' ≤ c ∧ c ≤ 'Z' then some (c.toNat - 65)
  else if 'a' ≤ c ∧ c ≤ 'z' then some (c.toNat - 97 + 26)
  else if '0' ≤ c ∧ c ≤ '9' then some (c.toNat - 48 + 52)
  else if c = '+' then some 62
  else if c = '/' then some 63
  else none

/-- Go `base64.StdEncoding.Decode` on newline-free input: process 4-character
quanta; a padded final quantum must end the input (bytes are still written
when trailing data follows it, with the error flag set, as Go does); any
malformed quantum contributes no bytes and stops with the error flag.  Returns
the decoded bytes and whether an error was reported. -/
def b64quanta : List Char → List Nat × Bool
  | c1 :: c2 :: c3 :: c4 :: rest =>
    match b64val c1, b64val c2 with
    | some v1, some v2 =>
      if c3 = '=' then
        if c4 = '=' then ([v1 * 4 + v2 / 16], !(rest = []))
        else ([], true)
      else
        match b64val c3 with
        | some v3 =>
          if c4 = '=' then ([v1 * 4 + v2 / 16, v2 % 16 * 16 + v3 / 4], !(rest = []))
          else
            match b64val c4 with
            | some v4 =>
              let r := b64quanta rest
              ((v1 * 4 + v2 / 16) :: (v2 % 16 * 16 + v3 / 4) :: (v3 % 4 * 64 + v4) :: r.1, r.2)
            | none => ([], true)
        | none => ([], true)
    | _, _ => ([], true)
  | [] => ([], false)
  | _ => ([], true)

/-- `DecodeB64` from the `agent` package: `base64.StdEncoding.DecodeString`
(which ignores `\r`/`\n` and returns the bytes successfully decoded before the
first error) with the error discarded; `string(decoded)` keeps the raw bytes,
so the result is modelled as the byte list. -/
def DecodeB64 (s : List Char) : List Nat :=
  (b64quanta (s.filter (fun c => !(c = Char.ofNat 10 || c = Char.ofNat 13)))).1

/-- A fully valid base64 quantum with no padding (decodes to exactly 3 bytes). -/
def ValidQuad (q : Char × Char × Char × Char) : Prop :=
  (b64val q.1).isSome ∧ (b64val q.2.1).isSome ∧ (b64val q.2.2.1).isSome ∧ (b64val q.2.2.2).isSome

/-- The characters of a list of quanta, in order. -/
def quadChars (qs : List (Char × Char × Char × Char)) : List Char :=
  qs.flatMap fun q => [q.1, q.2.1, q.2.2.1, q.2.2.2]

/-- The three bytes a valid unpadded quantum decodes to. -/
def quadBytes (q : Char × Char × Char × Char) : List Nat :=
  [((b64val q.1).getD 0) * 4 + ((b64val q.2.1).getD 0) / 16,
   ((b64val q.2.1).getD 0) % 16 * 16 + ((b64val q.2.2.1).getD 0) / 4,
   ((b64val q.2.2.1).getD 0) % 4 * 64 + ((b64val q.2.2.2).getD 0)]

/-- An assistant `StreamEvent` carrying a single text fragment (the shape the
cursor/claude vendors emit for one streaming delta). -/
def assistantEvent (t : List Char) : StreamEvent :=
  { zeroEvent with
    ty := "assistant".toList,
    message := { content := [{ ctype := "text".toList, text := t }] } }

/-- A `tool_call` `StreamEvent` with subtype `started`, the given tool name in
the primary name field, and the given code argument. -/
def toolStartedEvent (name code : List Char) : StreamEvent :=
  { zeroEvent with
    ty := "tool_call".toList,
    subtype := "started".toList,
    toolCall := { mcpToolCall := { args := { name := name, toolName := [], args := { code := code } } } } }

/-- A concrete OpenCode `tool_use` event with status `"running"`. -/
def sampleToolUseEvent : OpenCodeStreamEvent :=
  { ty := "tool_use".toList, timestamp := 0, sessionID := [],
    part := { id := [], pty := [], text := [], tool := "playwriter-execute".toList,
              state := { status := "running".toList, input := { code := "1+1".toList } } } }

/-- A concrete OpenCode event of a type the converter does not recognize. -/
def sampleUnknownEvent : OpenCodeStreamEvent :=
  { ty := "step_start".toList, timestamp := 0, sessionID := [],
    part := { id := [], pty := [], text := [], tool := [],
              state := { status := [], input := { code := [] } } } }

theorem scan_mono {s : List Char} {d : Nat} {i e : Bool} {n : Nat} (t : List Char)
    (h : scan s d i e = some n) : scan (s ++ t) d i e = some n := by
  induction s generalizing d i e n with
  | nil => simp [scan] at h
  | cons c cs ih =>
    simp only [List.cons_append, scan] at h ⊢
    split_ifs at h ⊢ <;>
      first
        | exact h
        | (obtain ⟨m, hm, hn⟩ := Option.map_eq_some'.mp h
           subst hn
           simp only [List.append_eq]
           rw [ih hm]
           rfl)

theorem scan_le {s : List Char} {d : Nat} {i e : Bool} {n : Nat}
    (h : scan s d i e = some n) : n ≤ s.length := by
  induction s generalizing d i e n with
  | nil => simp [scan] at h
  | cons c cs ih =>
    simp only [scan] at h
    simp only [List.length_cons]
    split_ifs at h <;>
      first
        | (simp only [Option.some.injEq] at h; omega)
        | (obtain ⟨m, hm, hn⟩ := Option.map_eq_some'.mp h
           have := ih hm
           omega)

theorem dropWhile_append_cons {α : Type} {p : α → Bool} {s r t : List α} {c : α}
    (h : s.dropWhile p = c :: r) : (s ++ t).dropWhile p = c :: (r ++ t) := by
  induction s with
  | nil => simp [List.dropWhile] at h
  | cons a as ih =>
    simp only [List.cons_append, List.dropWhile] at h ⊢
    cases hp : p a with
    | true => simp only [hp] at h ⊢; exact ih h
    | false =>
      simp only [hp] at h ⊢
      cases h
      rfl

theorem takeWhile_append_stable {α : Type} {p : α → Bool} {s r t : List α} {c : α}
    (h : s.dropWhile p = c :: r) : (s ++ t).takeWhile p = s.takeWhile p := by
  induction s with
  | nil => simp [List.dropWhile] at h
  | cons a as ih =>
    simp only [List.cons_append, List.takeWhile, List.dropWhile] at h ⊢
    cases hp : p a with
    | true =>
      simp only [hp, cond_true] at h ⊢
      simp only [List.append_eq]
      rw [ih h]
    | false => simp only [hp, cond_false]

theorem parseOne_mono {s v r : List Char} (t : List Char)
    (h : parseOne s = some (v, r)) : parseOne (s ++ t) = some (v, r ++ t) := by
  unfold parseOne at h ⊢
  cases hd : s.dropWhile isJsonWs with
  | nil => rw [hd] at h; exact absurd h (by simp)
  | cons c rest =>
    rw [hd] at h
    rw [dropWhile_append_cons hd]
    simp only at h ⊢
    by_cases hc : c = lbraceChar
    · simp only [if_pos hc] at h ⊢
      cases hs : scan rest 1 false false with
      | none => rw [hs] at h; exact absurd h (by simp)
      | some n =>
        rw [hs] at h
        rw [scan_mono t hs]
        simp only [Option.some.injEq, Prod.mk.injEq] at h ⊢
        obtain ⟨hv, hr⟩ := h
        have hle : n ≤ rest.length := scan_le hs
        constructor
        · rw [takeWhile_append_stable hd, List.take_append_of_le_length hle]
          exact hv
        · rw [List.drop_append_of_le_length hle, hr]
    · simp only [if_neg hc] at h
      exact absurd h (by simp)

theorem parseOne_split {s v r : List Char} (h : parseOne s = some (v, r)) :
    v ++ r = s ∧ r.length < s.length := by
  unfold parseOne at h
  cases hd : s.dropWhile isJsonWs with
  | nil => rw [hd] at h; exact absurd h (by simp)
  | cons c rest =>
    rw [hd] at h
    simp only at h
    by_cases hc : c = lbraceChar
    · simp only [if_pos hc] at h
      cases hs : scan rest 1 false false with
      | none => rw [hs] at h; exact absurd h (by simp)
      | some n =>
        rw [hs] at h
        simp only [Option.some.injEq, Prod.mk.injEq] at h
        obtain ⟨hv, hr⟩ := h
        have hsplit : s.takeWhile isJsonWs ++ s.dropWhile isJsonWs = s :=
          List.takeWhile_append_dropWhile _ _
        rw [hd] at hsplit
        constructor
        · rw [← hv, ← hr]
          simpa [List.append_assoc] using hsplit
        · have hlen := congrArg List.length hsplit
          simp only [List.length_append, List.length_cons] at hlen
          rw [← hr]
          simp only [List.length_drop]
          omega
    · simp only [if_neg hc] at h
      exact absurd h (by simp)

theorem parseOne_nil : parseOne [] = none := rfl

theorem greedyF_irrel (f₁ : Nat) : ∀ (s : List Char) (f₂ : Nat),
    s.length < f₁ → s.length < f₂ → greedyF f₁ s = greedyF f₂ s := by
  induction f₁ with
  | zero => intro s f₂ h _; omega
  | succ f ih =>
    intro s f₂ h1 h2
    cases f₂ with
    | zero => omega
    | succ f2 =>
      cases hp : parseOne s with
      | none => simp only [greedyF, hp]
      | some vr =>
        obtain ⟨v, r⟩ := vr
        have hlt := (parseOne_split hp).2
        simp only [greedyF, hp]
        rw [ih r f2 (by omega) (by omega)]

theorem greedy_none {s : List Char} (h : parseOne s = none) : greedy s = ([], s) := by
  unfold greedy greedyF
  rw [h]

theorem greedy_some {s v r : List Char} (h : parseOne s = some (v, r)) :
    greedy s = (v :: (greedy r).1, (greedy r).2) := by
  have hlt := (parseOne_split h).2
  have step : greedy s = (v :: (greedyF s.length r).1, (greedyF s.length r).2) := by
    simp only [greedy, greedyF, h]
  rw [step, greedyF_irrel s.length r (r.length + 1) hlt (by omega)]
  rfl

theorem greedy_snd_none (s : List Char) : parseOne (greedy s).2 = none := by
  have key : ∀ (n : Nat) (u : List Char), u.length ≤ n → parseOne (greedy u).2 = none := by
    intro n
    induction n with
    | zero =>
      intro u hu
      have : u = [] := List.length_eq_zero.mp (Nat.le_zero.mp hu)
      subst this
      rw [greedy_none parseOne_nil]
      exact parseOne_nil
    | succ m ih =>
      intro u hu
      cases hp : parseOne u with
      | none => rw [greedy_none hp]; exact hp
      | some vr =>
        obtain ⟨v, r⟩ := vr
        rw [greedy_some hp]
        exact ih r (by have := (parseOne_split hp).2; omega)
  exact key s.length s le_rfl

theorem greedy_append (n : Nat) : ∀ (s t : List Char), s.length ≤ n →
    greedy (s ++ t) =
      ((greedy s).1 ++ (greedy ((greedy s).2 ++ t)).1, (greedy ((greedy s).2 ++ t)).2) := by
  induction n with
  | zero =>
    intro s t hs
    have : s = [] := List.length_eq_zero.mp (Nat.le_zero.mp hs)
    subst this
    rw [greedy_none parseOne_nil]
    simp
  | succ m ih =>
    intro s t hs
    cases hp : parseOne s with
    | none =>
      rw [greedy_none hp]
      simp
    | some vr =>
      obtain ⟨v, r⟩ := vr
      have hsp := parseOne_split hp
      rw [greedy_some hp]
      rw [greedy_some (parseOne_mono t hp)]
      rw [ih r t (by omega)]
      simp

theorem foldl_feedStep : ∀ (chunks : List (List Char)) (E : List (List Char)) (b : List Char),
    parseOne b = none →
    chunks.foldl feedStep (E, b) =
      (E ++ (greedy (b ++ chunks.flatten)).1, (greedy (b ++ chunks.flatten)).2) := by
  intro chunks
  induction chunks with
  | nil =>
    intro E b hb
    simp only [List.foldl_nil, List.flatten_nil, List.append_nil]
    rw [greedy_none hb]
    simp
  | cons c cs ih =>
    intro E b hb
    simp only [List.foldl_cons, List.flatten_cons]
    by_cases hc : c = []
    · subst hc
      have : feedStep (E, b) [] = (E, b) := by simp [feedStep]
      rw [this, ih E b hb]
      simp
    · have hstep : feedStep (E, b) c = (E ++ (greedy (b ++ c)).1, (greedy (b ++ c)).2) := by
        simp [feedStep, hc]
      rw [hstep, ih _ _ (greedy_snd_none (b ++ c))]
      have happ := greedy_append (b ++ c).length (b ++ c) cs.flatten le_rfl
      rw [← List.append_assoc, happ]
      simp [List.append_assoc]

theorem greedy_objs : ∀ (objs : List (List Char)), (∀ o ∈ objs, IsJsonObject o) →
    greedy objs.flatten = (objs, []) := by
  intro objs
  induction objs with
  | nil =>
    intro _
    simp only [List.flatten_nil]
    exact greedy_none parseOne_nil
  | cons o os ih =>
    intro h
    have ho : IsJsonObject o := h o (by simp)
    have hos : ∀ o' ∈ os, IsJsonObject o' := fun o' ho' => h o' (by simp [ho'])
    simp only [List.flatten_cons]
    have hmono : parseOne (o ++ os.flatten) = some (o, os.flatten) := by
      have := parseOne_mono os.flatten ho
      simpa using this
    rw [greedy_some hmono, ih hos]

/-- C1: for every finite sequence of well-formed back-to-back top-level JSON
objects and every partition of its byte serialization into chunks (boundaries
arbitrary, including inside string literals and numbers), the `Run` decode
loop (the `jsonBuffer`/`json.Decoder` loop plus the end-of-stream flush)
invokes the handler exactly once per object, with the objects in their
original order and byte-identical to decoding the unsplit byte sequence. -/
theorem chunked_decode_faithful (objs chunks : List (List Char))
    (hobjs : ∀ o ∈ objs, IsJsonObject o)
    (hsplit : chunks.flatten = objs.flatten) :
    runFeeds chunks = objs ∧ runFeeds [objs.flatten] = objs := by
  have key : ∀ cs : List (List Char), cs.flatten = objs.flatten → runFeeds cs = objs := by
    intro cs hcs
    simp only [runFeeds]
    rw [foldl_feedStep cs [] [] parseOne_nil]
    simp only [List.nil_append]
    rw [hcs, greedy_objs objs hobjs]
    simp [greedy_none parseOne_nil]
  exact ⟨key chunks hsplit, key [objs.flatten] (by simp)⟩

/-- Witness for C1: two objects split into three chunks, with boundaries
inside a string literal and inside a number. -/
theorem chunked_decode_faithful_witness :
    (∀ o ∈ (["\x7b\"a\":\"x\"\x7d".toList, "\x7b\"b\":[1,2]\x7d".toList] : List (List Char)),
        IsJsonObject o) ∧
    runFeeds ["\x7b\"a\":\"".toList, "x\"\x7d\x7b\"b\":[1,".toList, "2]\x7d".toList] =
      ["\x7b\"a\":\"x\"\x7d".toList, "\x7b\"b\":[1,2]\x7d".toList] := by
  have hobjs : ∀ o ∈ (["\x7b\"a\":\"x\"\x7d".toList, "\x7b\"b\":[1,2]\x7d".toList] : List (List Char)),
      IsJsonObject o := by
    intro o ho
    simp only [List.mem_cons, List.not_mem_nil, or_false] at ho
    rcases ho with rfl | rfl <;> (unfold IsJsonObject; decide)
  exact ⟨hobjs,
    (chunked_decode_faithful ["\x7b\"a\":\"x\"\x7d".toList, "\x7b\"b\":[1,2]\x7d".toList]
      ["\x7b\"a\":\"".toList, "x\"\x7d\x7b\"b\":[1,".toList, "2]\x7d".toList]
      hobjs (by decide)).1⟩

theorem badStart_parseOne {b : List Char} (hb : BadStart b) : parseOne b = none := by
  obtain ⟨c, r, hd, hns⟩ := hb
  unfold parseOne
  rw [hd]
  simp only
  have hc : ¬ c = lbraceChar := by
    intro h
    subst h
    exact absurd hns (by decide)
  rw [if_neg hc]

theorem badStart_append {b : List Char} (t : List Char) (hb : BadStart b) :
    BadStart (b ++ t) := by
  obtain ⟨c, r, hd, hns⟩ := hb
  exact ⟨c, r ++ t, dropWhile_append_cons hd, hns⟩

theorem badStart_foldl : ∀ (chunks : List (List Char)) (b : List Char) (E : List (List Char)),
    BadStart b →
    chunks.foldl feedStep (E, b) = (E, b ++ chunks.flatten) ∧
    BadStart (b ++ chunks.flatten) := by
  intro chunks
  induction chunks with
  | nil =>
    intro b E hb
    constructor
    · simp
    · simpa using hb
  | cons c cs ih =>
    intro b E hb
    simp only [List.foldl_cons, List.flatten_cons]
    by_cases hc : c = []
    · subst hc
      have h0 : feedStep (E, b) [] = (E, b) := by simp [feedStep]
      rw [h0]
      simpa using ih b E hb
    · have hg : greedy (b ++ c) = ([], b ++ c) :=
        greedy_none (badStart_parseOne (badStart_append c hb))
      have h1 : feedStep (E, b) c = (E, b ++ c) := by
        simp [feedStep, hc, hg]
      rw [h1]
      simpa [List.append_assoc] using ih (b ++ c) E (badStart_append c hb)

/-- C5: once the decode buffer begins with bytes that cannot start a JSON
value (e.g. terminal escape sequences before the first object), every
subsequent feed and the final end-of-stream flush emit zero events: the
leading bytes are never removed from the buffer (it keeps growing by exactly
the appended chunks), so every later well-formed JSON object in the stream is
lost. -/
theorem bad_start_loses_stream (b : List Char) (E : List (List Char))
    (chunks : List (List Char)) (hb : BadStart b) :
    (chunks.foldl feedStep (E, b)).1 = E ∧
    (chunks.foldl feedStep (E, b)).2 = b ++ chunks.flatten ∧
    (greedy (chunks.foldl feedStep (E, b)).2).1 = [] := by
  obtain ⟨heq, hbs⟩ := badStart_foldl chunks b E hb
  rw [heq]
  exact ⟨rfl, rfl, by rw [greedy_none (badStart_parseOne hbs)]⟩

/-- Witness for C5: a buffer starting with `ESC [` followed by a feed carrying
a complete well-formed object still emits nothing. -/
theorem bad_start_loses_stream_witness :
    BadStart [Char.ofNat 27, '['] ∧
    (([("\x7b\"a\":1\x7d".toList)].foldl feedStep ([], [Char.ofNat 27, '['])).1 = [] ∧
     ([("\x7b\"a\":1\x7d".toList)].foldl feedStep ([], [Char.ofNat 27, '['])).2 =
       [Char.ofNat 27, '['] ++ [("\x7b\"a\":1\x7d".toList)].flatten ∧
     (greedy (([("\x7b\"a\":1\x7d".toList)].foldl feedStep ([], [Char.ofNat 27, '['])).2)).1 = []) := by
  have hb : BadStart [Char.ofNat 27, '['] := ⟨Char.ofNat 27, ['['], by decide, by decide⟩
  exact ⟨hb, bad_start_loses_stream [Char.ofNat 27, '['] [] [("\x7b\"a\":1\x7d".toList)] hb⟩

theorem collapse_id {s : List Char} (h : containsNN s = false) : collapseNewlines s = s := by
  unfold collapseNewlines
  cases s with
  | nil => rfl
  | cons c cs => simp [collapseFuel, h]

theorem goFieldsAux_no_space : ∀ (s acc : List Char), (∀ c ∈ acc, isGoSpace c = false) →
    ∀ w ∈ goFieldsAux s acc, ∀ c ∈ w, isGoSpace c = false := by
  intro s
  induction s with
  | nil =>
    intro acc hacc w hw c hc
    simp only [goFieldsAux] at hw
    by_cases h : acc = []
    · simp [h] at hw
    · simp only [if_neg h, List.mem_singleton] at hw
      subst hw
      exact hacc c (List.mem_reverse.mp hc)
  | cons a as ih =>
    intro acc hacc w hw c hc
    simp only [goFieldsAux] at hw
    cases hsp : isGoSpace a with
    | true =>
      rw [if_pos hsp] at hw
      by_cases h : acc = []
      · rw [if_pos h] at hw
        exact ih [] (by simp) w hw c hc
      · rw [if_neg h] at hw
        rcases List.mem_cons.mp hw with rfl | hw'
        · exact hacc c (List.mem_reverse.mp hc)
        · exact ih [] (by simp) w hw' c hc
    | false =>
      rw [if_neg (by simp [hsp])] at hw
      refine ih (a :: acc) ?_ w hw c hc
      intro c' hc'
      rcases List.mem_cons.mp hc' with rfl | h'
      · exact hsp
      · exact hacc c' h'

theorem mem_joinSpace : ∀ (ws : List (List Char)) (c : Char), c ∈ joinSpace ws →
    c = ' ' ∨ ∃ w ∈ ws, c ∈ w := by
  intro ws
  induction ws with
  | nil => intro c hc; simp [joinSpace] at hc
  | cons w ws ih =>
    intro c hc
    cases ws with
    | nil =>
      right
      exact ⟨w, by simp, by simpa [joinSpace] using hc⟩
    | cons w' ws' =>
      simp only [joinSpace] at hc
      rcases List.mem_append.mp hc with h | h
      · right; exact ⟨w, by simp, h⟩
      · rcases List.mem_cons.mp h with rfl | h'
        · left; rfl
        · rcases ih c h' with h'' | ⟨w'', hw'', hc''⟩
          · left; exact h''
          · right; exact ⟨w'', by simp [hw''], hc''⟩

theorem no_newline_in_collapsed (x : List Char) (c : Char)
    (hc : c ∈ joinSpace (goFields x)) : ¬ c = Char.ofNat 10 := by
  rcases mem_joinSpace _ c hc with h | ⟨w, hw, hcw⟩
  · subst h; decide
  · have hns := goFieldsAux_no_space x [] (by simp) w hw c hcw
    intro h
    subst h
    simp [isGoSpace] at hns

/-- Counterexample for C2: two consecutive assistant events carrying the same
non-empty trimmed text `"a\n\nb"` produce TWO display lines, not one.
`ProcessEvent` stores the newline-collapsed text `"a\nb"` in
`lastPrintedMessage`, so the second event's trimmed text `"a\n\nb"` does not
equal the stored value and is printed again. -/
theorem assistant_dedup_counterexample :
    (trimSpace "a\n\nb".toList ≠ [] ∧ trimSpace "a\n\nb".toList = "a\n\nb".toList) ∧
    ((ProcessEvent [] (assistantEvent "a\n\nb".toList)).2 ++
     (ProcessEvent (ProcessEvent [] (assistantEvent "a\n\nb".toList)).1
        (assistantEvent "a\n\nb".toList)).2).length = 2 := by
  decide

/-- C2 (amended): for a pair of consecutive assistant events with the same
non-empty trimmed text fragment, provided the trimmed text contains no two
consecutive newlines (so newline collapsing leaves it unchanged) and differs
from the currently stored `lastPrintedMessage`, the presentation filter prints
exactly one display line for the pair: the second fragment is skipped because
it equals the stored `lastPrintedMessage`. -/
theorem assistant_dedup (last t : List Char)
    (h1 : trimSpace t ≠ []) (h2 : trimSpace t ≠ last)
    (h3 : containsNN (trimSpace t) = false) :
    (ProcessEvent last (assistantEvent t)).2 ++
      (ProcessEvent (ProcessEvent last (assistantEvent t)).1 (assistantEvent t)).2 =
      [if containsNL (trimSpace t) then trimSpace t else "> ".toList ++ trimSpace t] := by
  have d1 : ("assistant".toList = "system".toList ∨ "assistant".toList = "user".toList ∨
      "assistant".toList = "thinking".toList ∨ "assistant".toList = "result".toList) = False :=
    eq_false (by decide)
  have d2 : ("assistant".toList = "tool_call".toList) = False := eq_false (by decide)
  have d3 : ("assistant".toList = "assistant".toList) = True := eq_true rfl
  have hfirst : ProcessEvent last (assistantEvent t) = (trimSpace t,
      [if containsNL (trimSpace t) then trimSpace t else "> ".toList ++ trimSpace t]) := by
    simp only [ProcessEvent, assistantEvent, d1, d2, d3, if_false, if_true]
    simp only [processContent]
    rw [if_pos ⟨h1, h2⟩, collapse_id h3]
  have hsecond : ProcessEvent (trimSpace t) (assistantEvent t) = (trimSpace t, []) := by
    simp only [ProcessEvent, assistantEvent, d1, d2, d3, if_false, if_true]
    simp only [processContent]
    rw [if_neg (by simp)]
  rw [hfirst, hsecond]
  simp

/-- Witness for C2 (amended): a concrete pair of identical single-line
assistant events, from a state holding a different last-printed text, prints
exactly one line. -/
theorem assistant_dedup_witness :
    (trimSpace "hi".toList ≠ [] ∧ trimSpace "hi".toList ≠ ("x".toList : List Char) ∧
      containsNN (trimSpace "hi".toList) = false) ∧
    (ProcessEvent "x".toList (assistantEvent "hi".toList)).2 ++
      (ProcessEvent (ProcessEvent "x".toList (assistantEvent "hi".toList)).1
        (assistantEvent "hi".toList)).2 =
      [if containsNL (trimSpace "hi".toList) then trimSpace "hi".toList
       else "> ".toList ++ trimSpace "hi".toList] :=
  ⟨⟨by decide, by decide, by decide⟩,
    assistant_dedup "x".toList "hi".toList (by decide) (by decide) (by decide)⟩

/-- Counterexample for C3: a tool-call-started event whose 200-character code
argument is `'a'` followed by 199 newlines.  After newline replacement and
whitespace collapsing the code shrinks to the single character `"a"`, so the
display line is `"[tool] t: a"`: its code portion (the part after `": "`) has
length 1, not 80, and carries no ellipsis. -/
theorem tool_code_truncation_counterexample :
    ('a' :: List.replicate 199 (Char.ofNat 10)).length = 200 ∧
    ("t".toList : List Char) ≠ [] ∧
    (ProcessEvent [] (toolStartedEvent "t".toList ('a' :: List.replicate 199 (Char.ofNat 10)))).2 =
      ["[tool] t: a".toList] ∧
    "[tool] t: a".toList.length ≠ "[tool] t: ".toList.length + 80 := by
  decide

/-- C3 (amended): for a tool-call-started event with a non-empty tool name and
a 200-character code argument WHOSE WHITESPACE-COLLAPSED FORM STILL EXCEEDS 80
CHARACTERS, the code portion of the emitted display line is exactly 80
characters, ending in the 3-character ellipsis suffix `"..."`, with no
newline remaining (all internal newlines were replaced by spaces).  The
original claim omitted the collapsed-length condition: collapsing happens
before the length test, so a 200-character argument can shrink below the
truncation threshold (see the counterexample). -/
theorem tool_code_truncation (last name code : List Char)
    (hname : name ≠ []) (hlen : code.length = 200)
    (hbig : 80 < (joinSpace (goFields (replaceNLBySpace code))).length) :
    (ProcessEvent last (toolStartedEvent name code)).2 =
      ["[tool] ".toList ++ name ++ ": ".toList ++
        ((joinSpace (goFields (replaceNLBySpace code))).take 77 ++ "...".toList)] ∧
    ((joinSpace (goFields (replaceNLBySpace code))).take 77 ++ "...".toList).length = 80 ∧
    containsNL ((joinSpace (goFields (replaceNLBySpace code))).take 77 ++ "...".toList) = false := by
  have d1 : ("tool_call".toList = "system".toList ∨ "tool_call".toList = "user".toList ∨
      "tool_call".toList = "thinking".toList ∨ "tool_call".toList = "result".toList) = False :=
    eq_false (by decide)
  have d2 : ("tool_call".toList = "tool_call".toList) = True := eq_true rfl
  have d3 : ("started".toList = "started".toList) = True := eq_true rfl
  have hcode : code ≠ [] := by
    intro h
    rw [h] at hlen
    simp at hlen
  refine ⟨?_, ?_, ?_⟩
  · simp only [ProcessEvent, toolStartedEvent, d1, d2, d3, if_false, if_true]
    rw [if_neg hname, if_pos hname, if_pos hcode, if_pos hbig]
  · have h77 : ((joinSpace (goFields (replaceNLBySpace code))).take 77).length = 77 := by
      rw [List.length_take]
      omega
    simp [List.length_append, h77]
  · have hall : ∀ c ∈ (joinSpace (goFields (replaceNLBySpace code))).take 77 ++ "...".toList,
        ¬(c = Char.ofNat 10) := by
      intro c hc
      rcases List.mem_append.mp hc with h | h
      · exact no_newline_in_collapsed _ c (List.take_subset _ _ h)
      · exact fun heq => absurd (heq ▸ h) (by decide)
    simp only [containsNL]
    rw [List.any_eq_false]
    intro x hx
    simpa using hall x hx

/-- Witness for C3 (amended): 200 copies of `'a'` survive collapsing intact,
so the displayed code portion is the 77-character prefix plus `"..."`. -/
theorem tool_code_truncation_witness :
    (("t".toList : List Char) ≠ [] ∧ (List.replicate 200 'a' : List Char).length = 200 ∧
      80 < (joinSpace (goFields (replaceNLBySpace (List.replicate 200 'a')))).length) ∧
    ((ProcessEvent [] (toolStartedEvent "t".toList (List.replicate 200 'a'))).2 =
      ["[tool] ".toList ++ "t".toList ++ ": ".toList ++
        ((joinSpace (goFields (replaceNLBySpace (List.replicate 200 'a')))).take 77 ++ "...".toList)] ∧
    ((joinSpace (goFields (replaceNLBySpace (List.replicate 200 'a')))).take 77 ++ "...".toList).length = 80 ∧
    containsNL ((joinSpace (goFields (replaceNLBySpace (List.replicate 200 'a')))).take 77 ++
      "...".toList) = false) :=
  ⟨⟨by decide, by decide, by decide⟩,
    tool_code_truncation [] "t".toList (List.replicate 200 'a') (by decide) (by decide) (by decide)⟩

/-- C6: for every OpenCode event of type `tool_use`, `convertEvent` produces a
`tool_call` StreamEvent whose subtype is `started` exactly when
`part.state.status` is not `"completed"` (and empty otherwise), with the tool
name taken from `part.tool` and the code preview from
`part.state.input.code`. -/
theorem opencode_tool_use_conversion (oc : OpenCodeStreamEvent)
    (h : oc.ty = "tool_use".toList) :
    (convertEvent oc).ty = "tool_call".toList ∧
    ((convertEvent oc).subtype = "started".toList ↔ oc.part.state.status ≠ "completed".toList) ∧
    (oc.part.state.status = "completed".toList → (convertEvent oc).subtype = []) ∧
    (convertEvent oc).toolCall.mcpToolCall.args.name = oc.part.tool ∧
    (convertEvent oc).toolCall.mcpToolCall.args.args.code = oc.part.state.input.code := by
  have d1 : (("tool_use".toList : List Char) = "text".toList) = False := eq_false (by decide)
  have d2 : (("tool_use".toList : List Char) = "tool_use".toList) = True := eq_true rfl
  simp only [convertEvent, h, d1, d2, if_false, if_true]
  refine ⟨by trivial, ?_, ?_, by trivial, by trivial⟩
  · by_cases hs : oc.part.state.status = "completed".toList
    · simp [hs]
    · simp [hs]
  · intro hs
    simp [hs]

/-- Witness for C6: a concrete `tool_use` event with status `"running"`. -/
theorem opencode_tool_use_conversion_witness :
    sampleToolUseEvent.ty = "tool_use".toList ∧
    ((convertEvent sampleToolUseEvent).ty = "tool_call".toList ∧
     ((convertEvent sampleToolUseEvent).subtype = "started".toList ↔
        sampleToolUseEvent.part.state.status ≠ "completed".toList) ∧
     (sampleToolUseEvent.part.state.status = "completed".toList →
        (convertEvent sampleToolUseEvent).subtype = []) ∧
     (convertEvent sampleToolUseEvent).toolCall.mcpToolCall.args.name =
        sampleToolUseEvent.part.tool ∧
     (convertEvent sampleToolUseEvent).toolCall.mcpToolCall.args.args.code =
        sampleToolUseEvent.part.state.input.code) :=
  ⟨rfl, opencode_tool_use_conversion sampleToolUseEvent rfl⟩

/-- C7: a vendor event whose type is none of the recognized kinds passes
through normalization with its kind set to the raw type string and all payload
fields empty (the Go zero value), and the presentation filter emits zero
display lines for it; processing is a total function, so no error is ever
raised on unrecognized input. -/
theorem unknown_type_passthrough (oc : OpenCodeStreamEvent) (st : List Char)
    (h1 : oc.ty ≠ "text".toList) (h2 : oc.ty ≠ "tool_use".toList) :
    convertEvent oc = { zeroEvent with ty := oc.ty } ∧
    ProcessEvent st (convertEvent oc) = (st, []) := by
  have hconv : convertEvent oc = { zeroEvent with ty := oc.ty } := by
    simp only [convertEvent, if_neg h1, if_neg h2]
  refine ⟨hconv, ?_⟩
  rw [hconv]
  simp only [ProcessEvent]
  by_cases hA : oc.ty = "system".toList ∨ oc.ty = "user".toList ∨
      oc.ty = "thinking".toList ∨ oc.ty = "result".toList
  · rw [if_pos hA]
  · rw [if_neg hA]
    by_cases hB : oc.ty = "tool_call".toList
    · rw [if_pos hB, if_neg (show ¬(zeroEvent.subtype = "started".toList) by decide)]
    · rw [if_neg hB]
      by_cases hC : oc.ty = "assistant".toList
      · rw [if_pos hC]
        rfl
      · rw [if_neg hC]

/-- Witness for C7: a concrete `step_start` event (a type the converter does
not recognize). -/
theorem unknown_type_passthrough_witness :
    (sampleUnknownEvent.ty ≠ "text".toList ∧ sampleUnknownEvent.ty ≠ "tool_use".toList) ∧
    (convertEvent sampleUnknownEvent = { zeroEvent with ty := sampleUnknownEvent.ty } ∧
     ProcessEvent [] (convertEvent sampleUnknownEvent) = ([], [])) :=
  ⟨⟨by decide, by decide⟩, unknown_type_passthrough sampleUnknownEvent [] (by decide) (by decide)⟩

/-- C9: for every event whose kind is `system`, `user`, `thinking` or
`result`, normalization yields a StreamEvent whose kind matches the vendor
type with all payload fields empty, and the presentation filter emits zero
display lines — both for the normalized event and for ANY StreamEvent of that
kind, however its payload is populated. -/
theorem passive_kinds_silent (t st : List Char) (oc : OpenCodeStreamEvent)
    (ht : t = "system".toList ∨ t = "user".toList ∨ t = "thinking".toList ∨ t = "result".toList)
    (hoc : oc.ty = t) :
    convertEvent oc = { zeroEvent with ty := t } ∧
    ProcessEvent st (convertEvent oc) = (st, []) ∧
    (∀ ev : StreamEvent, ev.ty = t → ProcessEvent st ev = (st, [])) := by
  have h1t : ¬(t = "text".toList) := by
    rcases ht with rfl | rfl | rfl | rfl <;> decide
  have h2t : ¬(t = "tool_use".toList) := by
    rcases ht with rfl | rfl | rfl | rfl <;> decide
  have hconv : convertEvent oc = { zeroEvent with ty := t } := by
    simp only [convertEvent, hoc, if_neg h1t, if_neg h2t]
  have hskip : ∀ ev : StreamEvent, ev.ty = t → ProcessEvent st ev = (st, []) := by
    intro ev hev
    simp only [ProcessEvent]
    rw [if_pos (by rcases ht with rfl | rfl | rfl | rfl <;> simp [hev])]
  refine ⟨hconv, ?_, hskip⟩
  exact hskip _ (by rw [hconv])

/-- Witness for C9: a concrete `result` event. -/
theorem passive_kinds_silent_witness :
    ((("result".toList : List Char) = "system".toList ∨
      ("result".toList : List Char) = "user".toList ∨
      ("result".toList : List Char) = "thinking".toList ∨
      ("result".toList : List Char) = "result".toList) ∧
     ({ sampleUnknownEvent with ty := "result".toList } : OpenCodeStreamEvent).ty =
       "result".toList) ∧
    (convertEvent { sampleUnknownEvent with ty := "result".toList } =
       { zeroEvent with ty := "result".toList } ∧
     ProcessEvent "x".toList
       (convertEvent { sampleUnknownEvent with ty := "result".toList }) = ("x".toList, []) ∧
     (∀ ev : StreamEvent, ev.ty = "result".toList →
        ProcessEvent "x".toList ev = ("x".toList, []))) :=
  ⟨⟨by decide, rfl⟩,
    passive_kinds_silent "result".toList "x".toList
      { sampleUnknownEvent with ty := "result".toList } (by decide) rfl⟩

/-- C8: a run with a positive agent timeout that receives no exit signal
before the deadline (modelled, per the SDK stream contract, as the stream
stopping with `Err() = DeadlineExceeded` and no exit event among its items)
terminates with a timeout-specific error surfaced to the caller — distinct
from a normal exit-code result — and never returns a normal exit code as a
successful (error-free) result. -/
theorem runLoop_no_exit : ∀ (items : List StreamItem) (acc : List (List Char) × List Char),
    (∀ i ∈ items, ∀ c : Int, i ≠ StreamItem.exit c) → (runLoop items acc).2 = none := by
  intro items
  induction items with
  | nil => intro acc _; rfl
  | cons i is ih =>
    intro acc hno
    cases i with
    | data d =>
      simp only [runLoop]
      exact ih _ (fun j hj => hno j (by simp [hj]))
    | exit c => exact absurd rfl (hno (StreamItem.exit c) (by simp) c)

theorem timeout_distinct_outcome (tr : StreamTrace)
    (hnoexit : ∀ i ∈ tr.items, ∀ c : Int, i ≠ StreamItem.exit c)
    (herr : tr.err = some StreamErr.deadlineExceeded) :
    (agentRun tr).2 = (1, some (RunErr.streamError StreamErr.deadlineExceeded)) ∧
    (runLoop tr.items ([], [])).2 = none ∧
    ∀ c : Int, (agentRun tr).2 ≠ (c, none) := by
  have h : (agentRun tr).2 = (1, some (RunErr.streamError StreamErr.deadlineExceeded)) := by
    simp only [agentRun, herr]
  refine ⟨h, runLoop_no_exit tr.items ([], []) hnoexit, ?_⟩
  intro c
  rw [h]
  simp

/-- Witness for C8: a trace with one data chunk, no exit event, ending with
the deadline error. -/
theorem timeout_distinct_outcome_witness :
    ((∀ i ∈ ({ items := [StreamItem.data "x".toList],
               err := some StreamErr.deadlineExceeded } : StreamTrace).items,
        ∀ c : Int, i ≠ StreamItem.exit c) ∧
     ({ items := [StreamItem.data "x".toList],
        err := some StreamErr.deadlineExceeded } : StreamTrace).err =
       some StreamErr.deadlineExceeded) ∧
    ((agentRun { items := [StreamItem.data "x".toList],
                 err := some StreamErr.deadlineExceeded }).2 =
       (1, some (RunErr.streamError StreamErr.deadlineExceeded)) ∧
     (runLoop ({ items := [StreamItem.data "x".toList],
                 err := some StreamErr.deadlineExceeded } : StreamTrace).items ([], [])).2 = none ∧
     ∀ c : Int, (agentRun { items := [StreamItem.data "x".toList],
                            err := some StreamErr.deadlineExceeded }).2 ≠ (c, none)) :=
  ⟨⟨by
      intro i hi c
      simp only [List.mem_singleton] at hi
      subst hi
      exact fun hcontra => StreamItem.noConfusion hcontra, rfl⟩,
    timeout_distinct_outcome
      { items := [StreamItem.data "x".toList], err := some StreamErr.deadlineExceeded }
      (by
        intro i hi c
        simp only [List.mem_singleton] at hi
        subst hi
        exact fun hcontra => StreamItem.noConfusion hcontra)
      rfl⟩

theorem b64val_passes_filter {c : Char} (h : (b64val c).isSome) :
    (!(c = Char.ofNat 10 || c = Char.ofNat 13)) = true := by
  by_cases h10 : c = Char.ofNat 10
  · subst h10
    exact absurd h (by decide)
  · by_cases h13 : c = Char.ofNat 13
    · subst h13
      exact absurd h (by decide)
    · simp [h10, h13]

theorem b64val_ne_pad {c : Char} (h : (b64val c).isSome) : ¬(c = '=') := by
  intro heq
  subst heq
  exact absurd h (by decide)

theorem filter_quadChars {qs : List (Char × Char × Char × Char)}
    (hq : ∀ q ∈ qs, ValidQuad q) :
    (quadChars qs).filter (fun c => !(c = Char.ofNat 10 || c = Char.ofNat 13)) = quadChars qs := by
  rw [List.filter_eq_self]
  intro a ha
  obtain ⟨q, hqmem, hcq⟩ := List.mem_flatMap.mp ha
  obtain ⟨v1, v2, v3, v4⟩ := hq q hqmem
  simp only [List.mem_cons, List.not_mem_nil, or_false] at hcq
  rcases hcq with rfl | rfl | rfl | rfl
  · exact b64val_passes_filter v1
  · exact b64val_passes_filter v2
  · exact b64val_passes_filter v3
  · exact b64val_passes_filter v4

theorem b64quanta_append (qs : List (Char × Char × Char × Char)) (w : List Char)
    (hq : ∀ q ∈ qs, ValidQuad q) :
    b64quanta (quadChars qs ++ w) =
      (qs.flatMap quadBytes ++ (b64quanta w).1, (b64quanta w).2) := by
  induction qs with
  | nil => simp [quadChars]
  | cons q qs ih =>
    obtain ⟨h1, h2, h3, h4⟩ := hq q (by simp)
    obtain ⟨v1, hv1⟩ := Option.isSome_iff_exists.mp h1
    obtain ⟨v2, hv2⟩ := Option.isSome_iff_exists.mp h2
    obtain ⟨v3, hv3⟩ := Option.isSome_iff_exists.mp h3
    obtain ⟨v4, hv4⟩ := Option.isSome_iff_exists.mp h4
    have hrest := ih (fun q' hq' => hq q' (by simp [hq']))
    have hchars : quadChars (q :: qs) ++ w =
        q.1 :: q.2.1 :: q.2.2.1 :: q.2.2.2 :: (quadChars qs ++ w) := by
      simp [quadChars]
    rw [hchars]
    simp only [b64quanta, hv1, hv2, hv3, hv4, if_neg (b64val_ne_pad h3),
      if_neg (b64val_ne_pad h4), hrest]
    simp [quadBytes, hv1, hv2, hv3, hv4, List.flatMap_cons]

/-- C10: `DecodeB64` is total and never reports an error: it returns the bytes
successfully decoded before the first base64 decoding error.  Concretely, for
any input formed of complete valid unpadded quanta followed by an arbitrary
(possibly malformed) tail, the result is the decoding of the valid prefix
followed by whatever the tail yields — so malformed base64 yields a possibly
non-empty decoded prefix rather than a failure. -/
theorem decodeB64_prefix (qs : List (Char × Char × Char × Char)) (w : List Char)
    (hq : ∀ q ∈ qs, ValidQuad q) :
    DecodeB64 (quadChars qs ++ w) = qs.flatMap quadBytes ++ DecodeB64 w := by
  unfold DecodeB64
  rw [List.filter_append, filter_quadChars hq,
    b64quanta_append qs (w.filter (fun c => !(c = Char.ofNat 10 || c = Char.ofNat 13))) hq]

/-- Witness for C10: `"QUJD!"` (valid quantum `QUJD` then an invalid byte)
decodes to the non-empty byte prefix `"ABC"` (65 66 67) with no failure. -/
theorem decodeB64_prefix_witness :
    (∀ q ∈ [('Q', 'U', 'J', 'D')], ValidQuad q) ∧
    DecodeB64 (quadChars [('Q', 'U', 'J', 'D')] ++ "!".toList) =
      [('Q', 'U', 'J', 'D')].flatMap quadBytes ++ DecodeB64 "!".toList ∧
    DecodeB64 "QUJD!".toList = [65, 66, 67] ∧
    DecodeB64 "!".toList = [] := by
  have hq : ∀ q ∈ [('Q', 'U', 'J', 'D')], ValidQuad q := by
    intro q hqm
    simp only [List.mem_singleton] at hqm
    subst hqm
    unfold ValidQuad
    exact ⟨by decide, by decide, by decide, by decide⟩
  exact ⟨hq, decodeB64_prefix [('Q', 'U', 'J', 'D')] "!".toList hq, by decide, by decide⟩

/-- C4: feeding the two chunks `{"type":"assistant","mess` and
`age":{"content":[{"type":"text","text":"Hi\n\nthere"}]}}{"type":"result"}`
through the decode loop and presentation filter produces exactly one display
line containing `"Hi\nthere"` (the blank line collapsed to a single newline),
rendered as a multi-line block (no `"> "` marker), and no display line for the
`result` event — the decoded stream contains both the assistant and the
result event, yet only one line is printed. -/
theorem end_to_end_blank_line_collapse :
    pipeline ["\x7b\"type\":\"assistant\",\"mess".toList,
      "age\":\x7b\"content\":[\x7b\"type\":\"text\",\"text\":\"Hi\\n\\nthere\"\x7d]\x7d\x7d\x7b\"type\":\"result\"\x7d".toList] =
      ["Hi\nthere".toList] ∧
    containsNL "Hi\nthere".toList = true ∧
    ((runFeeds ["\x7b\"type\":\"assistant\",\"mess".toList,
        "age\":\x7b\"content\":[\x7b\"type\":\"text\",\"text\":\"Hi\\n\\nthere\"\x7d]\x7d\x7d\x7b\"type\":\"result\"\x7d".toList]).filterMap
      decodeStreamEvent).map StreamEvent.ty = ["assistant".toList, "result".toList] := by
  decide
